import Mathlib

/-!
Verification development for the text chunker in `src/main.py`
(`sanitize_and_prepare_text_for_llm`).  Strings are modelled as `List Char`
(Python strings are sequences of Unicode code points), and the two bounds
`min_chars` and `max_chars` are modelled as `Int` (Python integers are
unbounded and may be negative).

The Python function is:

  Step 1: for each (old, new) in the replacement table, `text = text.replace(old, new)`;
          then `re.sub(r"[^\x20-\x7E\n\r\t]", "", text)`;
          then `re.sub(r"\s+", " ", text).strip()`.
  Step 2: `re.split(r"(?<=[.!?])\s+", text)`.
  Step 3: greedy packing of sentences into chunks, joined by a newline.

Note on the replacement table: in the source file the dictionary literal is

    replacements = { <dquote>: <dquote>,
                     <three quote marks>: <dquote><squote><dquote>, ... }

whose quote characters are plain ASCII quotes, so Python parses it as the
five entries embedded below in `replacements`: a straight double quote
mapped to itself, the seven-character string  colon space dquote squote
dquote comma space  mapped to a single quote, em dash and en dash mapped
to a hyphen, and the non-breaking space mapped to a space.  No curly
quote appears among the keys.  The embedding reproduces these literal
bytes of the source.

Python `\s` also matches the vertical tab, form feed and further Unicode
whitespace, but both `re.sub(r"\s+", ...)` and `.strip()` run after the
character filter, which keeps only `\x20`..`\x7E`, newline, carriage
return and tab; on that alphabet `\s` is exactly the set recognised by
`isPySpace` below.
-/

/-- Whitespace as matched by Python regex `\s` on the post-filter alphabet. -/
def isPySpace (c : Char) : Bool :=
  c = ' ' || c = '\t' || c = '\n' || c = '\r'

/-- Characters kept by `re.sub(r"[^\x20-\x7E\n\r\t]", "", text)`. -/
def keepChar (c : Char) : Bool :=
  (0x20 ≤ c.toNat && c.toNat ≤ 0x7E) || c = '\n' || c = '\r' || c = '\t'

/-- Drop the longest whitespace run at the front of the list. -/
def dropWs : List Char → List Char
  | [] => []
  | c :: cs => if isPySpace c then dropWs cs else c :: cs

/-- Drop the longest whitespace run at the back of the list. -/
def dropWsEnd : List Char → List Char
  | [] => []
  | c :: cs =>
    let r := dropWsEnd cs
    if r.isEmpty && isPySpace c then [] else c :: r

/-- Python `str.strip()`: remove leading and trailing whitespace. -/
def strip (s : List Char) : List Char :=
  dropWsEnd (dropWs s)

/-- Worker for Python `str.replace`: leftmost, non-overlapping occurrences of
`pat` are replaced by `rep`; `skip` counts pattern characters still to be
consumed after a match has been emitted. -/
def replAux (pat rep : List Char) : Nat → List Char → List Char
  | _ + 1, [] => []
  | n + 1, _ :: cs => replAux pat rep n cs
  | 0, [] => []
  | 0, c :: cs =>
    if pat.isPrefixOf (c :: cs) then
      rep ++ replAux pat rep (pat.length - 1) cs
    else
      c :: replAux pat rep 0 cs

/-- Python `text.replace(pat, rep)` for a non-empty pattern. -/
def replacePat (pat rep s : List Char) : List Char :=
  replAux pat rep 0 s

/-- The replacement table of Step 1, with the exact keys the Python literal
produces (see the header comment): a straight double quote mapped to itself,
the seven characters  colon space dquote squote dquote comma space  mapped
to a single quote, em dash and en dash mapped to a hyphen, and U+00A0
mapped to a space.  Python dictionaries iterate in insertion order. -/
def replacements : List (List Char × List Char) :=
  [ (['\x22'], ['\x22']),
    ([':', ' ', '\x22', '\x27', '\x22', ',', ' '], ['\x27']),
    (['\u2014'], ['-']),
    (['\u2013'], ['-']),
    (['\u00A0'], [' ']) ]

/-- The replacement loop of Step 1. -/
def applyReplacements (text : List Char) : List Char :=
  replacements.foldl (fun t pr => replacePat pr.1 pr.2 t) text

/-- The character filter `re.sub(r"[^\x20-\x7E\n\r\t]", "", text)`. -/
def removeBad (text : List Char) : List Char :=
  text.filter keepChar

/-- Worker for `re.sub(r"\s+", " ", text)`: the flag records whether the scan
is inside a whitespace run whose single replacement space was already
emitted. -/
def collapseGo : Bool → List Char → List Char
  | _, [] => []
  | inWs, c :: cs =>
    if isPySpace c then
      if inWs then collapseGo true cs else ' ' :: collapseGo true cs
    else
      c :: collapseGo false cs

/-- Python `re.sub(r"\s+", " ", text)`. -/
def collapseWs (text : List Char) : List Char :=
  collapseGo false text

/-- Step 1 of the Python function: replacements, character filter,
whitespace collapse, strip. -/
def normalizeText (text : List Char) : List Char :=
  strip (collapseWs (removeBad (applyReplacements text)))

/-- Terminal sentence punctuation of the split regex `(?<=[.!?])\s+`. -/
def isTerminal (c : Char) : Bool :=
  c = '.' || c = '!' || c = '?'

/-- Worker for `re.split(r"(?<=[.!?])\s+", text)`.  In mode `false` the scan
accumulates the current piece in `acc` (reversed); a whitespace character
immediately after a terminal punctuation mark ends the piece.  Mode `true`
consumes the remaining whitespace of a delimiter run (`acc` is empty
there). -/
def splitGo : Bool → List Char → List Char → List (List Char)
  | _, acc, [] => [acc.reverse]
  | true, acc, d :: ds =>
    if isPySpace d then splitGo true acc ds else splitGo false (d :: acc) ds
  | false, acc, c :: cs =>
    if isTerminal c then
      match cs with
      | [] => [(c :: acc).reverse]
      | d :: ds =>
        if isPySpace d then (c :: acc).reverse :: splitGo true [] (d :: ds)
        else splitGo false (c :: acc) (d :: ds)
    else splitGo false (c :: acc) cs

/-- Step 2 of the Python function: `re.split(r"(?<=[.!?])\s+", text)`. -/
def splitSentences (text : List Char) : List (List Char) :=
  splitGo false [] text

/-- One iteration of the Step 3 loop.  The state is the pair
(completed lines, current accumulator). -/
def packStep (min_chars max_chars : Int) (st : List (List Char) × List Char)
    (sentence : List Char) : List (List Char) × List Char :=
  if strip sentence = [] then st
  else if (st.2.length : Int) + (sentence.length : Int) + 1 ≤ max_chars then
    (st.1, st.2 ++ sentence ++ [' '])
  else if min_chars ≤ ((strip st.2).length : Int) then
    (st.1 ++ [strip st.2], sentence ++ [' '])
  else
    (st.1, st.2 ++ sentence ++ [' '])

/-- The Step 3 loop over all sentences, starting from no lines and an empty
accumulator. -/
def packLoop (min_chars max_chars : Int) (sentences : List (List Char)) :
    List (List Char) × List Char :=
  sentences.foldl (packStep min_chars max_chars) ([], [])

/-- The chunk list produced by the Python function: the loop result plus the
final flush of a non-empty trimmed accumulator. -/
def prepareChunks (text : List Char) (min_chars max_chars : Int) :
    List (List Char) :=
  let st := packLoop min_chars max_chars (splitSentences (normalizeText text))
  if strip st.2 = [] then st.1 else st.1 ++ [strip st.2]

/-- Python `"\n".join(lines)`. -/
def joinNl : List (List Char) → List Char
  | [] => []
  | [l] => l
  | l :: ls => l ++ '\n' :: joinNl ls

/-- The whole Python function `sanitize_and_prepare_text_for_llm` (its
defaults are `min_chars = 100`, `max_chars = 300`). -/
def sanitize_and_prepare_text_for_llm (text : List Char)
    (min_chars max_chars : Int) : List Char :=
  joinNl (prepareChunks text min_chars max_chars)

/-- A chunk together with ghost instrumentation recorded at the moment it was
pushed: `fm` is true when some sentence entered the chunk through the
force-merge branch; `ovr` is true when the chunk started at a flush with a
sentence `s` such that `s.length + 1 > max_chars` (an oversized restart);
`b1` is true when the chunk holds at least one sentence and every one of its
sentences entered through the `candidate_len <= max_chars` branch. -/
structure FChunk where
  text : List Char
  fm : Bool
  ovr : Bool
  b1 : Bool
deriving DecidableEq, Repr

/-- State of the instrumented Step 3 loop: the flags apply to the current
accumulator. -/
structure PackStF where
  lines : List FChunk
  cur : List Char
  fm : Bool
  ovr : Bool
  b1 : Bool
deriving DecidableEq, Repr

/-- One iteration of the Step 3 loop with ghost flags; the `text` parts
behave exactly as in `packStep`. -/
def packStepF (min_chars max_chars : Int) (st : PackStF) (sentence : List Char) :
    PackStF :=
  if strip sentence = [] then st
  else if (st.cur.length : Int) + (sentence.length : Int) + 1 ≤ max_chars then
    { st with cur := st.cur ++ sentence ++ [' '], b1 := st.b1 || st.cur.isEmpty }
  else if min_chars ≤ ((strip st.cur).length : Int) then
    { lines := st.lines ++ [⟨strip st.cur, st.fm, st.ovr, st.b1⟩],
      cur := sentence ++ [' '],
      fm := false,
      ovr := decide (max_chars < (sentence.length : Int) + 1),
      b1 := false }
  else
    { st with cur := st.cur ++ sentence ++ [' '], fm := true, b1 := false }

/-- The instrumented Step 3 loop. -/
def packLoopF (min_chars max_chars : Int) (sentences : List (List Char)) :
    PackStF :=
  sentences.foldl (packStepF min_chars max_chars) ⟨[], [], false, false, false⟩

/-- The chunk list with ghost flags. -/
def prepareChunksF (text : List Char) (min_chars max_chars : Int) :
    List FChunk :=
  let st := packLoopF min_chars max_chars (splitSentences (normalizeText text))
  if strip st.cur = [] then st.lines
  else st.lines ++ [⟨strip st.cur, st.fm, st.ovr, st.b1⟩]

/-- The sentence joining used by the accumulator: every sentence is followed
by one joining space. -/
def joinSp : List (List Char) → List Char
  | [] => []
  | s :: rest => s ++ ' ' :: joinSp rest

/-- The chunk a group of sentences produces: the trimmed accumulator. -/
def chunkOf (g : List (List Char)) : List Char :=
  strip (joinSp g)

/-- The guard of the Step 3 loop: a sentence is kept when it is non-empty
after trimming. -/
def keepS (s : List Char) : Bool :=
  decide (strip s ≠ [])

/-- The sentences of the normalized text that the Step 3 loop does not
skip. -/
def keptSentences (t : List Char) : List (List Char) :=
  (splitSentences t).filter keepS

/-- No two adjacent characters of the list both satisfy `p`. -/
def noAdj (p : Char → Bool) : List Char → Bool
  | [] => true
  | [_] => true
  | a :: b :: rest => (!(p a && p b)) && noAdj p (b :: rest)

/-- A piece is clean when it does not start or end with whitespace and has no
two adjacent whitespace characters.  The empty piece is clean. -/
def cleanP (s : List Char) : Prop :=
  (∀ x, s.head? = some x → isPySpace x = false) ∧
  (∀ x, s.getLast? = some x → isPySpace x = false) ∧
  noAdj isPySpace s = true

/-- The character recognised as the chunk separator. -/
def isNl (c : Char) : Bool :=
  decide (c = '\n')

/-- Concrete input of Scenario 3 of the specification: a sentence with curly
double quotes (U+201C, U+201D). -/
def exCurly : List Char :=
  ("She said \u201Chello\u201D").data

/-- Concrete input showing the seven-character replacement key in action: the
characters  colon space dquote squote dquote comma tab x .  The tab keeps the
key from matching on the first pass; the whitespace collapse then turns the
tab into a space, so the key matches on a second pass. -/
def exIdem : List Char :=
  [':', ' ', '\x22', '\x27', '\x22', ',', '\t', 'x']

/-- Concrete input for the chunk-bound claims: three sentences of lengths
3, 6 and 3. -/
def exBound : List Char :=
  ("ab. cdefg. hi.").data

/-- Concrete input for the minimum-bound witness. -/
def exMin : List Char :=
  ("ab. cdefg. hi.").data

/-- Concrete input for the strict-bound witness. -/
def exStrict : List Char :=
  ("ab. cdefg. hi.").data

/-- Concrete input of Scenario 2 of the specification. -/
def exHello : List Char :=
  ("Hello world.").data

/-- Concrete input for the character-set witness. -/
def exCharset : List Char :=
  ("Hello world.").data

/-! ### Lemmas about whitespace trimming -/

theorem dropWs_nil_of_all {l : List Char} (h : ∀ c ∈ l, isPySpace c = true) :
    dropWs l = [] := by
  induction l with
  | nil => rfl
  | cons c cs ih =>
    have hc := h c (List.mem_cons_self c cs)
    simp only [dropWs, hc, if_true]
    exact ih fun x hx => h x (List.mem_cons_of_mem c hx)

theorem all_ws_of_dropWs_nil {l : List Char} (h : dropWs l = []) :
    ∀ c ∈ l, isPySpace c = true := by
  induction l with
  | nil => intro c hc; cases hc
  | cons c cs ih =>
    by_cases hc : isPySpace c = true
    · simp only [dropWs, hc, if_true] at h
      intro x hx
      rcases List.mem_cons.mp hx with rfl | hx
      · exact hc
      · exact ih h x hx
    · simp only [dropWs, hc, if_false] at h
      cases h

theorem dropWs_length_le (l : List Char) : (dropWs l).length ≤ l.length := by
  induction l with
  | nil => exact Nat.le_refl 0
  | cons c cs ih =>
    by_cases hc : isPySpace c = true
    · simp only [dropWs, hc, if_true]
      exact Nat.le_trans ih (by simp)
    · simp only [dropWs, hc, if_false]
      exact Nat.le_refl _

theorem dropWs_suffix (l : List Char) : dropWs l <:+ l := by
  induction l with
  | nil => exact List.suffix_refl _
  | cons c cs ih =>
    by_cases hc : isPySpace c = true
    · simp only [dropWs, hc, if_true]
      exact ih.trans (List.suffix_cons c cs)
    · simp only [dropWs, hc, if_false]
      exact List.suffix_refl _

theorem dropWs_mem {l : List Char} {c : Char} (h : c ∈ dropWs l) : c ∈ l :=
  (dropWs_suffix l).subset h

theorem dropWs_head {l : List Char} {x : Char} (h : (dropWs l).head? = some x) :
    isPySpace x = false := by
  induction l with
  | nil => cases h
  | cons c cs ih =>
    by_cases hc : isPySpace c = true
    · simp only [dropWs, hc, if_true] at h
      exact ih h
    · simp only [dropWs, hc, if_false, List.head?_cons] at h
      cases h
      exact Bool.eq_false_iff.mpr hc

theorem dropWs_append (a b : List Char) :
    dropWs (a ++ b) = if (dropWs a).isEmpty then dropWs b else dropWs a ++ b := by
  induction a with
  | nil => simp [dropWs]
  | cons c cs ih =>
    by_cases hc : isPySpace c = true
    · simp only [List.cons_append, dropWs, hc, if_true]
      exact ih
    · simp only [List.cons_append, dropWs, hc, if_false, List.isEmpty_cons]
      rfl

theorem dropWsEnd_cons (c : Char) (cs : List Char) :
    dropWsEnd (c :: cs) =
      if (dropWsEnd cs).isEmpty && isPySpace c then [] else c :: dropWsEnd cs := rfl

theorem dropWsEnd_front (l : List Char) : dropWsEnd l <+: l := by
  induction l with
  | nil => exact List.prefix_refl _
  | cons c cs ih =>
    rw [dropWsEnd_cons]
    by_cases h : ((dropWsEnd cs).isEmpty && isPySpace c) = true
    · simp only [h, if_true]
      exact List.nil_prefix
    · simp only [h, if_false]
      exact List.cons_prefix_cons.mpr ⟨rfl, ih⟩

theorem dropWsEnd_length_le (l : List Char) : (dropWsEnd l).length ≤ l.length :=
  (dropWsEnd_front l).length_le

theorem dropWsEnd_mem {l : List Char} {c : Char} (h : c ∈ dropWsEnd l) : c ∈ l :=
  (dropWsEnd_front l).subset h

theorem dropWsEnd_nil_of_all {l : List Char} (h : ∀ c ∈ l, isPySpace c = true) :
    dropWsEnd l = [] := by
  induction l with
  | nil => rfl
  | cons c cs ih =>
    rw [dropWsEnd_cons, ih fun x hx => h x (List.mem_cons_of_mem c hx)]
    simp [h c (List.mem_cons_self c cs)]

theorem all_ws_of_dropWsEnd_nil {l : List Char} (h : dropWsEnd l = []) :
    ∀ c ∈ l, isPySpace c = true := by
  induction l with
  | nil => intro c hc; cases hc
  | cons c cs ih =>
    rw [dropWsEnd_cons] at h
    by_cases hb : ((dropWsEnd cs).isEmpty && isPySpace c) = true
    · have hcs : dropWsEnd cs = [] := List.isEmpty_iff.mp (Bool.and_elim_left hb)
      intro x hx
      rcases List.mem_cons.mp hx with rfl | hx
      · exact Bool.and_elim_right hb
      · exact ih hcs x hx
    · simp only [hb, if_false] at h
      cases h

theorem dropWsEnd_getLast : ∀ {l : List Char} {x : Char},
    (dropWsEnd l).getLast? = some x → isPySpace x = false := by
  intro l
  induction l with
  | nil => intro x h; cases h
  | cons c cs ih =>
    intro x h
    rw [dropWsEnd_cons] at h
    by_cases hb : ((dropWsEnd cs).isEmpty && isPySpace c) = true
    · rw [if_pos hb] at h
      cases h
    · rw [if_neg hb] at h
      rcases heq : dropWsEnd cs with _ | ⟨d, ds⟩
      · rw [heq] at h
        have hcx : c = x := by simpa using h
        subst hcx
        rw [heq] at hb
        simpa using hb
      · rw [heq] at h
        rw [List.getLast?_cons_cons] at h
        rw [heq] at ih
        exact ih h

theorem dropWsEnd_concat_ws {l : List Char} {w : Char} (hw : isPySpace w = true) :
    dropWsEnd (l ++ [w]) = dropWsEnd l := by
  induction l with
  | nil =>
    simp [dropWsEnd, hw]
  | cons c cs ih =>
    rw [List.cons_append, dropWsEnd_cons, dropWsEnd_cons, ih]

theorem dropWsEnd_head {l : List Char} (h : dropWsEnd l ≠ []) :
    (dropWsEnd l).head? = l.head? := by
  cases l with
  | nil => rfl
  | cons c cs =>
    rw [dropWsEnd_cons] at h ⊢
    by_cases hb : ((dropWsEnd cs).isEmpty && isPySpace c) = true
    · exact absurd (by simp [hb]) h
    · simp [hb]

theorem all_ws_of_dropWs_all {l : List Char}
    (h : ∀ c ∈ dropWs l, isPySpace c = true) : ∀ c ∈ l, isPySpace c = true := by
  induction l with
  | nil => intro c hc; cases hc
  | cons c cs ih =>
    by_cases hc : isPySpace c = true
    · simp only [dropWs, hc, if_true] at h
      intro x hx
      rcases List.mem_cons.mp hx with rfl | hx
      · exact hc
      · exact ih h x hx
    · simp only [dropWs, hc, if_false] at h
      exact absurd (h c (List.mem_cons_self c cs)) hc

theorem strip_nil_of_all {l : List Char} (h : ∀ c ∈ l, isPySpace c = true) :
    strip l = [] := by
  unfold strip
  exact dropWsEnd_nil_of_all fun c hc => h c (dropWs_mem hc)

theorem all_ws_of_strip_nil {l : List Char} (h : strip l = []) :
    ∀ c ∈ l, isPySpace c = true := by
  unfold strip at h
  exact all_ws_of_dropWs_all (all_ws_of_dropWsEnd_nil h)

theorem strip_mem {l : List Char} {c : Char} (h : c ∈ strip l) : c ∈ l :=
  dropWs_mem (dropWsEnd_mem h)

theorem strip_length_le (l : List Char) : (strip l).length ≤ l.length :=
  Nat.le_trans (dropWsEnd_length_le _) (dropWs_length_le l)

theorem strip_concat_ws_length {l : List Char} {w : Char}
    (hw : isPySpace w = true) : (strip (l ++ [w])).length ≤ l.length := by
  unfold strip
  rw [dropWs_append]
  by_cases he : (dropWs l).isEmpty = true
  · rw [if_pos he]
    simp [dropWs, hw, dropWsEnd]
  · rw [if_neg he]
    rw [dropWsEnd_concat_ws hw]
    exact Nat.le_trans (dropWsEnd_length_le _) (dropWs_length_le l)

theorem strip_head {l : List Char} {x : Char} (h : (strip l).head? = some x) :
    isPySpace x = false := by
  by_cases hn : strip l = []
  · rw [hn] at h
    cases h
  · unfold strip at h hn
    rw [dropWsEnd_head hn] at h
    exact dropWs_head h

theorem strip_getLast {l : List Char} {x : Char}
    (h : (strip l).getLast? = some x) : isPySpace x = false :=
  dropWsEnd_getLast h

theorem strip_within (l : List Char) : strip l <:+: l := by
  obtain ⟨t, ht⟩ := dropWsEnd_front (dropWs l)
  obtain ⟨s, hs⟩ := dropWs_suffix l
  refine ⟨s, t, ?_⟩
  conv_rhs => rw [← hs, ← ht]
  simp [strip]

/-! ### Lemmas about adjacency -/

theorem noAdj_cons_cons {p : Char → Bool} {a b : Char} {l : List Char} :
    noAdj p (a :: b :: l) = ((!(p a && p b)) && noAdj p (b :: l)) := rfl

theorem noAdj_tail {p : Char → Bool} {a : Char} {l : List Char}
    (h : noAdj p (a :: l) = true) : noAdj p l = true := by
  cases l with
  | nil => rfl
  | cons b bs =>
    rw [noAdj_cons_cons] at h
    simp only [Bool.and_eq_true] at h
    exact h.2

theorem noAdj_pair {p : Char → Bool} {a b : Char} {l : List Char}
    (h : noAdj p (a :: b :: l) = true) : (p a && p b) = false := by
  rw [noAdj_cons_cons] at h
  simp only [Bool.and_eq_true, Bool.not_eq_true'] at h
  exact h.1

theorem noAdj_cons_of {p : Char → Bool} {a : Char} {l : List Char}
    (h1 : noAdj p l = true)
    (h2 : ∀ b, l.head? = some b → (p a && p b) = false) :
    noAdj p (a :: l) = true := by
  cases l with
  | nil => rfl
  | cons b bs =>
    rw [noAdj_cons_cons]
    simp [h2 b rfl, h1]

theorem noAdj_of_all_not {p : Char → Bool} {l : List Char}
    (h : ∀ c ∈ l, p c = false) : noAdj p l = true := by
  induction l with
  | nil => rfl
  | cons a xs ih =>
    refine noAdj_cons_of (ih fun c hc => h c (List.mem_cons_of_mem a hc)) ?_
    intro b _
    simp [h a (List.mem_cons_self a xs)]

theorem noAdj_append {p : Char → Bool} {x y : List Char}
    (h1 : noAdj p x = true) (h2 : noAdj p y = true)
    (hj : ∀ a b, x.getLast? = some a → y.head? = some b → (p a && p b) = false) :
    noAdj p (x ++ y) = true := by
  induction x with
  | nil => exact h2
  | cons a xs ih =>
    cases xs with
    | nil =>
      refine noAdj_cons_of h2 ?_
      intro b hb
      exact hj a b rfl hb
    | cons b t =>
      have hp : (p a && p b) = false := noAdj_pair h1
      have ht : noAdj p ((b :: t) ++ y) = true := by
        refine ih (noAdj_tail h1) ?_
        intro a' b' ha hb
        refine hj a' b' ?_ hb
        rw [List.getLast?_cons_cons]
        exact ha
      simp only [List.cons_append] at ht ⊢
      rw [noAdj_cons_cons, hp]
      simpa using ht

theorem noAdj_append_left {p : Char → Bool} {x : List Char} (y : List Char)
    (h : noAdj p (x ++ y) = true) : noAdj p x = true := by
  induction x with
  | nil => rfl
  | cons a xs ih =>
    cases xs with
    | nil => rfl
    | cons b t =>
      simp only [List.cons_append] at h
      have hp := noAdj_pair h
      have ht : noAdj p (b :: t) = true := by
        refine ih ?_
        simp only [List.cons_append]
        exact noAdj_tail h
      rw [noAdj_cons_cons, hp]
      simpa using ht

theorem noAdj_append_right {p : Char → Bool} (x : List Char) {y : List Char}
    (h : noAdj p (x ++ y) = true) : noAdj p y = true := by
  induction x with
  | nil => exact h
  | cons a xs ih =>
    simp only [List.cons_append] at h
    exact ih (noAdj_tail h)

theorem noAdj_infix_pair {p : Char → Bool} {a b : Char} {l : List Char}
    (h : noAdj p l = true) (hinf : [a, b] <:+: l) : (p a && p b) = false := by
  obtain ⟨s, t, hst⟩ := hinf
  have h1 : noAdj p ([a, b] ++ t) = true := by
    refine noAdj_append_right s ?_
    rw [← List.append_assoc, hst]
    exact h
  have h2 : noAdj p [a, b] = true := noAdj_append_left t h1
  exact noAdj_pair h2

/-! ### A generic invariant lemma for folds -/

theorem foldl_inv {α β : Type} (P : β → Prop) {f : β → α → β}
    (step : ∀ b a, P b → P (f b a)) :
    ∀ (l : List α) (b : β), P b → P (l.foldl f b) := by
  intro l
  induction l with
  | nil => intro b h; exact h
  | cons a t ih => intro b h; exact ih (f b a) (step b a h)

/-! ### Lemmas about the sentence joining of the accumulator -/

theorem joinSp_concat (g : List (List Char)) (s : List Char) :
    joinSp (g ++ [s]) = joinSp g ++ (s ++ [' ']) := by
  induction g with
  | nil => rfl
  | cons a rest ih =>
    simp [joinSp, ih]

theorem mem_joinSp_of {g : List (List Char)} {s : List Char} {x : Char}
    (hs : s ∈ g) (hx : x ∈ s) : x ∈ joinSp g := by
  induction g with
  | nil => cases hs
  | cons a rest ih =>
    rcases List.mem_cons.mp hs with rfl | hs
    · exact List.mem_append_left _ hx
    · simp only [joinSp]
      exact List.mem_append_right _ (List.mem_cons_of_mem _ (ih hs))

theorem joinSp_mem {g : List (List Char)} {x : Char} (h : x ∈ joinSp g) :
    x = ' ' ∨ ∃ s ∈ g, x ∈ s := by
  induction g with
  | nil => cases h
  | cons a rest ih =>
    simp only [joinSp] at h
    rcases List.mem_append.mp h with ha | hr
    · exact Or.inr ⟨a, List.mem_cons_self a rest, ha⟩
    · rcases List.mem_cons.mp hr with rfl | hr
      · exact Or.inl rfl
      · rcases ih hr with rfl | ⟨s, hs, hx⟩
        · exact Or.inl rfl
        · exact Or.inr ⟨s, List.mem_cons_of_mem _ hs, hx⟩

/-! ### Unfolding lemmas for the chunk builders -/

theorem prepareChunks_eq (text : List Char) (min_chars max_chars : Int) :
    prepareChunks text min_chars max_chars =
      if strip (packLoop min_chars max_chars (splitSentences (normalizeText text))).2 = []
      then (packLoop min_chars max_chars (splitSentences (normalizeText text))).1
      else (packLoop min_chars max_chars (splitSentences (normalizeText text))).1 ++
        [strip (packLoop min_chars max_chars (splitSentences (normalizeText text))).2] := rfl

theorem prepareChunksF_eq (text : List Char) (min_chars max_chars : Int) :
    prepareChunksF text min_chars max_chars =
      if strip (packLoopF min_chars max_chars (splitSentences (normalizeText text))).cur = []
      then (packLoopF min_chars max_chars (splitSentences (normalizeText text))).lines
      else (packLoopF min_chars max_chars (splitSentences (normalizeText text))).lines ++
        [⟨strip (packLoopF min_chars max_chars (splitSentences (normalizeText text))).cur,
          (packLoopF min_chars max_chars (splitSentences (normalizeText text))).fm,
          (packLoopF min_chars max_chars (splitSentences (normalizeText text))).ovr,
          (packLoopF min_chars max_chars (splitSentences (normalizeText text))).b1⟩] := rfl

theorem exists_not_ws_of_strip_ne_nil {s : List Char} (h : strip s ≠ []) :
    ∃ c ∈ s, isPySpace c = false := by
  by_contra hc
  push_neg at hc
  refine h (strip_nil_of_all fun c hcs => ?_)
  have := hc c hcs
  exact eq_true_of_ne_false this

/-! ### The grouping invariant of the Step 3 loop -/

theorem pack_groups (min_chars max_chars : Int) :
    ∀ (ss : List (List Char)) (st : List (List Char) × List Char)
      (groups : List (List (List Char))) (gcur : List (List Char)),
      st.1 = groups.map chunkOf → st.2 = joinSp gcur →
      (∀ s ∈ gcur, strip s ≠ []) →
      ∃ (groups' : List (List (List Char))) (gcur' : List (List Char)),
        (ss.foldl (packStep min_chars max_chars) st).1 = groups'.map chunkOf ∧
        (ss.foldl (packStep min_chars max_chars) st).2 = joinSp gcur' ∧
        groups'.flatten ++ gcur' = (groups.flatten ++ gcur) ++ ss.filter keepS ∧
        (∀ s ∈ gcur', strip s ≠ []) := by
  intro ss
  induction ss with
  | nil =>
    intro st groups gcur h1 h2 h3
    exact ⟨groups, gcur, h1, h2, by simp, h3⟩
  | cons s rest ih =>
    intro st groups gcur h1 h2 h3
    by_cases hskip : strip s = []
    · have hstep : packStep min_chars max_chars st s = st := by
        unfold packStep
        rw [if_pos hskip]
      have hfil : keepS s = false := by simp [keepS, hskip]
      simp only [List.foldl_cons, hstep, List.filter_cons, hfil, if_false,
        Bool.false_eq_true]
      exact ih st groups gcur h1 h2 h3
    · have hkeep : keepS s = true := by simp [keepS, hskip]
      have hmemcur : ∀ x ∈ gcur ++ [s], strip x ≠ [] := by
        intro x hx
        rcases List.mem_append.mp hx with hx | hx
        · exact h3 x hx
        · rcases List.mem_singleton.mp hx with rfl
          exact hskip
      have hjoin : st.2 ++ s ++ [' '] = joinSp (gcur ++ [s]) := by
        rw [joinSp_concat, h2, List.append_assoc]
      by_cases hfit : (st.2.length : Int) + (s.length : Int) + 1 ≤ max_chars
      · have hstep : packStep min_chars max_chars st s = (st.1, st.2 ++ s ++ [' ']) := by
          unfold packStep
          rw [if_neg hskip, if_pos hfit]
        obtain ⟨G, g, hA, hB, hC, hD⟩ :=
          ih (st.1, st.2 ++ s ++ [' ']) groups (gcur ++ [s]) h1 hjoin hmemcur
        refine ⟨G, g, ?_, ?_, ?_, hD⟩
        · simpa only [List.foldl_cons, hstep] using hA
        · simpa only [List.foldl_cons, hstep] using hB
        · rw [hC]
          simp [hkeep, List.append_assoc]
      · by_cases hmin : min_chars ≤ ((strip st.2).length : Int)
        · have hstep : packStep min_chars max_chars st s =
              (st.1 ++ [strip st.2], s ++ [' ']) := by
            unfold packStep
            rw [if_neg hskip, if_neg hfit, if_pos hmin]
          have hlines : st.1 ++ [strip st.2] = (groups ++ [gcur]).map chunkOf := by
            rw [List.map_append, h1, h2]
            rfl
          have hcur : s ++ [' '] = joinSp [s] := by
            simp [joinSp]
          have hmem1 : ∀ x ∈ [s], strip x ≠ [] := by
            intro x hx
            rcases List.mem_singleton.mp hx with rfl
            exact hskip
          obtain ⟨G, g, hA, hB, hC, hD⟩ :=
            ih (st.1 ++ [strip st.2], s ++ [' ']) (groups ++ [gcur]) [s] hlines hcur hmem1
          refine ⟨G, g, ?_, ?_, ?_, hD⟩
          · simpa only [List.foldl_cons, hstep] using hA
          · simpa only [List.foldl_cons, hstep] using hB
          · rw [hC]
            simp [hkeep, List.append_assoc, List.flatten_append]
        · have hstep : packStep min_chars max_chars st s = (st.1, st.2 ++ s ++ [' ']) := by
            unfold packStep
            rw [if_neg hskip, if_neg hfit, if_neg hmin]
          obtain ⟨G, g, hA, hB, hC, hD⟩ :=
            ih (st.1, st.2 ++ s ++ [' ']) groups (gcur ++ [s]) h1 hjoin hmemcur
          refine ⟨G, g, ?_, ?_, ?_, hD⟩
          · simpa only [List.foldl_cons, hstep] using hA
          · simpa only [List.foldl_cons, hstep] using hB
          · rw [hC]
            simp [hkeep, List.append_assoc]

theorem prepareChunks_groups (text : List Char) (min_chars max_chars : Int) :
    ∃ groups : List (List (List Char)),
      groups.flatten = keptSentences (normalizeText text) ∧
      prepareChunks text min_chars max_chars = groups.map chunkOf := by
  obtain ⟨G, g, hA, hB, hC, hD⟩ :=
    pack_groups min_chars max_chars (splitSentences (normalizeText text)) ([], []) [] []
      rfl rfl (by intro s hs; cases hs)
  have hCk : G.flatten ++ g = keptSentences (normalizeText text) := by
    rw [hC]
    rfl
  rw [prepareChunks_eq]
  unfold packLoop
  by_cases hfin :
      strip ((splitSentences (normalizeText text)).foldl
        (packStep min_chars max_chars) ([], [])).2 = [] <;>
    rw [hB] at hfin
  · have hg : g = [] := by
      rcases hgg : g with _ | ⟨s0, grest⟩
      · rfl
      · exfalso
        rw [hgg] at hD hfin
        obtain ⟨c, hc, hcf⟩ :=
          exists_not_ws_of_strip_ne_nil (hD s0 (List.mem_cons_self _ _))
        have hjm : c ∈ joinSp (s0 :: grest) :=
          mem_joinSp_of (List.mem_cons_self _ _) hc
        have := all_ws_of_strip_nil hfin c hjm
        rw [this] at hcf
        cases hcf
    rw [hg] at hCk
    rw [if_pos]
    · exact ⟨G, by simpa using hCk, hA⟩
    · rw [hB, hg]
      rfl
  · rw [if_neg]
    · refine ⟨G ++ [g], ?_, ?_⟩
      · rw [List.flatten_concat]
        exact hCk
      · rw [List.map_append, hA, hB]
        rfl
    · rw [hB]
      exact hfin

/-! ### Claim theorems: conservation, minimum bound, empty input, degenerate
configuration, and the two normalization findings -/

/-- Claim C2: for every input string and every pair of bounds, concatenating
the sentences contained in the emitted chunks, in emission order, yields
exactly the sequence of non-empty, non-whitespace-only sentences produced by
Step 2 on the normalized text: no sentence is dropped, duplicated, reordered,
or split across two chunks.  The witnessing `groups` list records which
consecutive kept sentences each chunk holds, and every chunk is exactly its
group of sentences joined by single spaces and trimmed. -/
theorem C2_sentence_conservation (text : List Char) (min_chars max_chars : Int) :
    ∃ groups : List (List (List Char)),
      groups.flatten = keptSentences (normalizeText text) ∧
      prepareChunks text min_chars max_chars = groups.map chunkOf :=
  prepareChunks_groups text min_chars max_chars

theorem pack_min_invariant (text : List Char) (min_chars max_chars : Int) :
    ∀ c ∈ (packLoop min_chars max_chars (splitSentences (normalizeText text))).1,
      min_chars ≤ (c.length : Int) := by
  have hstep : ∀ (st : List (List Char) × List Char) (s : List Char),
      (∀ c ∈ st.1, min_chars ≤ (c.length : Int)) →
      ∀ c ∈ (packStep min_chars max_chars st s).1, min_chars ≤ (c.length : Int) := by
    intro st s hP
    unfold packStep
    by_cases hskip : strip s = []
    · rw [if_pos hskip]
      exact hP
    · rw [if_neg hskip]
      by_cases hfit : (st.2.length : Int) + (s.length : Int) + 1 ≤ max_chars
      · rw [if_pos hfit]
        exact hP
      · rw [if_neg hfit]
        by_cases hmin : min_chars ≤ ((strip st.2).length : Int)
        · rw [if_pos hmin]
          intro c hc
          rcases List.mem_append.mp hc with hc | hc
          · exact hP c hc
          · rcases List.mem_singleton.mp hc with rfl
            exact hmin
        · rw [if_neg hmin]
          exact hP
  unfold packLoop
  refine foldl_inv
    (fun (st : List (List Char) × List Char) =>
      ∀ c ∈ st.1, min_chars ≤ (c.length : Int))
    hstep _ _ ?_
  intro c hc
  cases hc

/-- Claim C4: no chunk other than the final one is emitted with length below
`min_chars`: every chunk pushed during the Step 3 loop has trimmed length at
least `min_chars`, and hence so does every chunk of the returned list except
possibly the last. -/
theorem C4_min_bound_policy (text : List Char) (min_chars max_chars : Int) :
    (∀ c ∈ (packLoop min_chars max_chars (splitSentences (normalizeText text))).1,
        min_chars ≤ (c.length : Int)) ∧
    (∀ c ∈ (prepareChunks text min_chars max_chars).dropLast,
        min_chars ≤ (c.length : Int)) := by
  have hloop := pack_min_invariant text min_chars max_chars
  refine ⟨hloop, ?_⟩
  rw [prepareChunks_eq]
  by_cases hfin :
      strip (packLoop min_chars max_chars (splitSentences (normalizeText text))).2 = []
  · rw [if_pos hfin]
    intro c hc
    exact hloop c (List.mem_of_mem_dropLast hc)
  · rw [if_neg hfin]
    rw [List.dropLast_concat]
    exact hloop

/-- Witness for C4 at a concrete input: with bounds 1 and 4 the text
`ab. cdefg. hi.` pushes the chunk `ab.` during the loop, and that chunk
meets the minimum bound. -/
theorem C4_min_bound_policy_witness :
    (("ab.").data ∈ (packLoop 1 4 (splitSentences (normalizeText exMin))).1) ∧
    (1 : Int) ≤ ((("ab.").data).length : Int) :=
  ⟨by decide, (C4_min_bound_policy exMin 1 4).1 (("ab.").data) (by decide)⟩

/-- Claim C5: whenever normalization empties the input, the function returns
the empty string. -/
theorem C5_empty_input (text : List Char) (min_chars max_chars : Int)
    (h : normalizeText text = []) :
    sanitize_and_prepare_text_for_llm text min_chars max_chars = [] := by
  unfold sanitize_and_prepare_text_for_llm
  rw [prepareChunks_eq, h]
  have hstep : packStep min_chars max_chars ([], []) [] = ([], []) := by
    unfold packStep
    rw [if_pos (show strip ([] : List Char) = [] from rfl)]
  have hloop : packLoop min_chars max_chars (splitSentences []) = ([], []) := by
    unfold packLoop
    show List.foldl (packStep min_chars max_chars) ([], []) [[]] = ([], [])
    rw [List.foldl_cons, hstep, List.foldl_nil]
  rw [hloop]
  rw [if_pos
    (show strip ((([], []) : List (List Char) × List Char)).2 = [] from rfl)]
  rfl

/-- Witness for C5: the empty input itself normalizes to the empty string and
produces the empty output, with the default bounds. -/
theorem C5_empty_input_witness :
    normalizeText [] = [] ∧ sanitize_and_prepare_text_for_llm [] 100 300 = [] :=
  ⟨rfl, C5_empty_input [] 100 300 rfl⟩

/-- Claim C7: the function is a total computable map; with `max_chars ≤ 0`,
every kept sentence takes the overflow branch, so the loop either flushes the
accumulator (when it reached `min_chars`) or grows it further, exactly as the
specification describes for a malformed configuration. -/
theorem C7_degenerate_config (min_chars max_chars : Int)
    (st : List (List Char) × List Char) (s : List Char)
    (hmax : max_chars ≤ 0) (hs : strip s ≠ []) :
    packStep min_chars max_chars st s =
      if min_chars ≤ ((strip st.2).length : Int)
      then (st.1 ++ [strip st.2], s ++ [' '])
      else (st.1, st.2 ++ s ++ [' ']) := by
  have hlt : ¬ ((st.2.length : Int) + (s.length : Int) + 1 ≤ max_chars) := by
    intro hc
    omega
  unfold packStep
  rw [if_neg hs, if_neg hlt]

/-- Witness for C7 at a concrete degenerate configuration. -/
theorem C7_degenerate_config_witness :
    (0 : Int) ≤ 0 ∧ strip (("ab").data) ≠ [] ∧
    packStep 5 0 ([], []) (("ab").data) =
      (if (5 : Int) ≤ ((strip ([] : List Char)).length : Int)
       then (([] : List (List Char)) ++ [strip ([] : List Char)], ("ab").data ++ [' '])
       else (([] : List (List Char)), ([] : List Char) ++ ("ab").data ++ [' '])) :=
  ⟨by decide, by decide,
    C7_degenerate_config 5 0 ([], []) (("ab").data) (by decide) (by decide)⟩

/-- Claim C1 is violated by the code: the replacement table of the source
contains no curly-quote key (its quote characters were themselves mangled to
ASCII quotes), so the curly double quotes of Scenario 3 are deleted by the
character filter rather than replaced by straight quotes.  The input
`She said U+201C hello U+201D` normalizes to `She said hello`, not to the
straight-quoted form the specification states. -/
theorem C1_curly_quotes_deleted :
    normalizeText exCurly = ("She said hello").data ∧
    normalizeText exCurly ≠ ("She said \x22hello\x22").data := by
  constructor
  · decide
  · decide

/-- Claim C6 is violated by the code: because of the mangled replacement key
(colon space dquote squote dquote comma space, mapped to a single quote),
Step 1 is not idempotent.  On `exIdem` the first pass only collapses the tab
to a space, which makes the key match on a second pass. -/
theorem C6_normalization_not_idempotent :
    normalizeText (normalizeText exIdem) ≠ normalizeText exIdem := by
  decide

/-! ### Agreement of the instrumented loop with the plain loop -/

theorem packF_agree (min_chars max_chars : Int) :
    ∀ (ss : List (List Char)) (st : List (List Char) × List Char) (stf : PackStF),
      st.1 = stf.lines.map FChunk.text → st.2 = stf.cur →
      (ss.foldl (packStep min_chars max_chars) st).1 =
        (ss.foldl (packStepF min_chars max_chars) stf).lines.map FChunk.text ∧
      (ss.foldl (packStep min_chars max_chars) st).2 =
        (ss.foldl (packStepF min_chars max_chars) stf).cur := by
  intro ss
  induction ss with
  | nil =>
    intro st stf h1 h2
    exact ⟨h1, h2⟩
  | cons s rest ih =>
    intro st stf h1 h2
    by_cases hskip : strip s = []
    · have e1 : packStep min_chars max_chars st s = st := by
        unfold packStep
        rw [if_pos hskip]
      have e2 : packStepF min_chars max_chars stf s = stf := by
        unfold packStepF
        rw [if_pos hskip]
      simp only [List.foldl_cons, e1, e2]
      exact ih st stf h1 h2
    · by_cases hfit : (st.2.length : Int) + (s.length : Int) + 1 ≤ max_chars
      · have hfitF : (stf.cur.length : Int) + (s.length : Int) + 1 ≤ max_chars := by
          rw [← h2]
          exact hfit
        have e1 : packStep min_chars max_chars st s = (st.1, st.2 ++ s ++ [' ']) := by
          unfold packStep
          rw [if_neg hskip, if_pos hfit]
        have e2 : packStepF min_chars max_chars stf s =
            { stf with cur := stf.cur ++ s ++ [' '], b1 := stf.b1 || stf.cur.isEmpty } := by
          unfold packStepF
          rw [if_neg hskip, if_pos hfitF]
        simp only [List.foldl_cons, e1, e2]
        exact ih _ _ h1 (by rw [h2])
      · have hfitF : ¬ ((stf.cur.length : Int) + (s.length : Int) + 1 ≤ max_chars) := by
          rw [← h2]
          exact hfit
        by_cases hmin : min_chars ≤ ((strip st.2).length : Int)
        · have hminF : min_chars ≤ ((strip stf.cur).length : Int) := by
            rw [← h2]
            exact hmin
          have e1 : packStep min_chars max_chars st s =
              (st.1 ++ [strip st.2], s ++ [' ']) := by
            unfold packStep
            rw [if_neg hskip, if_neg hfit, if_pos hmin]
          have e2 : packStepF min_chars max_chars stf s =
              { lines := stf.lines ++ [⟨strip stf.cur, stf.fm, stf.ovr, stf.b1⟩],
                cur := s ++ [' '],
                fm := false,
                ovr := decide (max_chars < (s.length : Int) + 1),
                b1 := false } := by
            unfold packStepF
            rw [if_neg hskip, if_neg hfitF, if_pos hminF]
          simp only [List.foldl_cons, e1, e2]
          refine ih _ _ ?_ rfl
          simp [h1, h2]
        · have hminF : ¬ min_chars ≤ ((strip stf.cur).length : Int) := by
            rw [← h2]
            exact hmin
          have e1 : packStep min_chars max_chars st s = (st.1, st.2 ++ s ++ [' ']) := by
            unfold packStep
            rw [if_neg hskip, if_neg hfit, if_neg hmin]
          have e2 : packStepF min_chars max_chars stf s =
              { stf with cur := stf.cur ++ s ++ [' '], fm := true, b1 := false } := by
            unfold packStepF
            rw [if_neg hskip, if_neg hfitF, if_neg hminF]
          simp only [List.foldl_cons, e1, e2]
          exact ih _ _ h1 (by rw [h2])

theorem prepareChunks_eq_mapF (text : List Char) (min_chars max_chars : Int) :
    prepareChunks text min_chars max_chars =
      (prepareChunksF text min_chars max_chars).map FChunk.text := by
  obtain ⟨hA, hB⟩ :=
    packF_agree min_chars max_chars (splitSentences (normalizeText text))
      ([], []) ⟨[], [], false, false, false⟩ rfl rfl
  rw [prepareChunks_eq, prepareChunksF_eq]
  unfold packLoop packLoopF
  by_cases hfin :
      strip ((splitSentences (normalizeText text)).foldl
        (packStepF min_chars max_chars) ⟨[], [], false, false, false⟩).cur = []
  · rw [if_pos hfin, if_pos (by rw [hB]; exact hfin)]
    exact hA
  · rw [if_neg hfin, if_neg (by rw [hB]; exact hfin)]
    rw [List.map_append, hA, hB]
    rfl

/-! ### Bound invariants of the instrumented loop -/

theorem packF_bound_invariant (min_chars max_chars : Int) (hmax : 0 ≤ max_chars)
    (ss : List (List Char)) :
    ((ss.foldl (packStepF min_chars max_chars) ⟨[], [], false, false, false⟩).fm = false →
      (ss.foldl (packStepF min_chars max_chars) ⟨[], [], false, false, false⟩).ovr = false →
      (((ss.foldl (packStepF min_chars max_chars)
        ⟨[], [], false, false, false⟩).cur.length : Int) ≤ max_chars)) ∧
    (∀ fc ∈ (ss.foldl (packStepF min_chars max_chars) ⟨[], [], false, false, false⟩).lines,
      fc.fm = false → fc.ovr = false → (fc.text.length : Int) ≤ max_chars) := by
  refine foldl_inv
    (fun (stf : PackStF) =>
      (stf.fm = false → stf.ovr = false → ((stf.cur.length : Int) ≤ max_chars)) ∧
      (∀ fc ∈ stf.lines, fc.fm = false → fc.ovr = false →
        (fc.text.length : Int) ≤ max_chars))
    ?_ ss ⟨[], [], false, false, false⟩ ⟨(fun _ _ => by simpa using hmax), ?_⟩
  · intro stf s hP
    obtain ⟨hc, hl⟩ := hP
    unfold packStepF
    by_cases hskip : strip s = []
    · rw [if_pos hskip]
      exact ⟨hc, hl⟩
    · rw [if_neg hskip]
      by_cases hfit : (stf.cur.length : Int) + (s.length : Int) + 1 ≤ max_chars
      · rw [if_pos hfit]
        refine ⟨?_, hl⟩
        intro _ _
        have hlen : (stf.cur ++ s ++ [' ']).length = stf.cur.length + s.length + 1 := by
          simp [Nat.add_assoc]
        simp only [hlen]
        push_cast
        omega
      · rw [if_neg hfit]
        by_cases hmin : min_chars ≤ ((strip stf.cur).length : Int)
        · rw [if_pos hmin]
          constructor
          · intro _ hovr
            simp only at hovr
            have hs1 : ¬ (max_chars < (s.length : Int) + 1) := by
              simpa using hovr
            have hlen : (s ++ [' ']).length = s.length + 1 := by
              simp
            simp only [hlen]
            push_cast
            omega
          · intro fc hfc
            rcases List.mem_append.mp hfc with hfc | hfc
            · exact hl fc hfc
            · rcases List.mem_singleton.mp hfc with rfl
              intro hfm hovr
              have hcur := hc hfm hovr
              have := strip_length_le stf.cur
              simp only
              omega
        · rw [if_neg hmin]
          refine ⟨?_, hl⟩
          intro hfm
          simp only at hfm
          cases hfm
  · intro fc hfc
    cases hfc

theorem packF_b1_invariant (min_chars max_chars : Int) (ss : List (List Char)) :
    (((ss.foldl (packStepF min_chars max_chars) ⟨[], [], false, false, false⟩).b1 = true →
      ∃ y, (ss.foldl (packStepF min_chars max_chars) ⟨[], [], false, false, false⟩).cur =
          y ++ [' '] ∧
        (((ss.foldl (packStepF min_chars max_chars)
          ⟨[], [], false, false, false⟩).cur.length : Int) ≤ max_chars))) ∧
    (∀ fc ∈ (ss.foldl (packStepF min_chars max_chars) ⟨[], [], false, false, false⟩).lines,
      fc.b1 = true → (fc.text.length : Int) ≤ max_chars - 1) := by
  refine foldl_inv
    (fun (stf : PackStF) =>
      (stf.b1 = true →
        ∃ y, stf.cur = y ++ [' '] ∧ ((stf.cur.length : Int) ≤ max_chars)) ∧
      (∀ fc ∈ stf.lines, fc.b1 = true → (fc.text.length : Int) ≤ max_chars - 1))
    ?_ ss ⟨[], [], false, false, false⟩ ⟨(fun h => by cases h), ?_⟩
  · intro stf s hP
    obtain ⟨hc, hl⟩ := hP
    unfold packStepF
    by_cases hskip : strip s = []
    · rw [if_pos hskip]
      exact ⟨hc, hl⟩
    · rw [if_neg hskip]
      by_cases hfit : (stf.cur.length : Int) + (s.length : Int) + 1 ≤ max_chars
      · rw [if_pos hfit]
        refine ⟨?_, hl⟩
        intro _
        refine ⟨stf.cur ++ s, by simp, ?_⟩
        have hlen : (stf.cur ++ s ++ [' ']).length = stf.cur.length + s.length + 1 := by
          simp [Nat.add_assoc]
        simp only [hlen]
        push_cast
        omega
      · rw [if_neg hfit]
        by_cases hmin : min_chars ≤ ((strip stf.cur).length : Int)
        · rw [if_pos hmin]
          constructor
          · intro hb1
            simp only at hb1
            cases hb1
          · intro fc hfc
            rcases List.mem_append.mp hfc with hfc | hfc
            · exact hl fc hfc
            · rcases List.mem_singleton.mp hfc with rfl
              intro hb1
              simp only at hb1 ⊢
              obtain ⟨y, hy, hlen⟩ := hc hb1
              have hstr : (strip stf.cur).length ≤ y.length := by
                rw [hy]
                exact strip_concat_ws_length rfl
              have hylen : stf.cur.length = y.length + 1 := by
                rw [hy]
                simp
              omega
        · rw [if_neg hmin]
          refine ⟨?_, hl⟩
          intro hb1
          simp only at hb1
          cases hb1
  · intro fc hfc
    cases hfc

/-- Claim C8: every chunk flushed during the loop whose sentences (at least
one) all entered through the `candidate_len <= max_chars` branch has length at
most `max_chars - 1`: the length test counts the trailing joining space, which
is trimmed off before the chunk is emitted. -/
theorem C8_strict_bound (text : List Char) (min_chars max_chars : Int) :
    ∀ fc ∈ (packLoopF min_chars max_chars (splitSentences (normalizeText text))).lines,
      fc.b1 = true → (fc.text.length : Int) ≤ max_chars - 1 := by
  have h := (packF_b1_invariant min_chars max_chars
    (splitSentences (normalizeText text))).2
  unfold packLoopF
  exact h

/-- Witness for C8 at a concrete input: with bounds 1 and 4, the first chunk
of `ab. cdefg. hi.` is loop-flushed, all its sentences entered through the
fit branch, and its length 3 is at most 4 - 1. -/
theorem C8_strict_bound_witness :
    ((⟨("ab.").data, false, false, true⟩ : FChunk) ∈
      (packLoopF 1 4 (splitSentences (normalizeText exStrict))).lines) ∧
    (((("ab.").data : List Char).length : Int) ≤ 4 - 1) :=
  ⟨by decide,
    C8_strict_bound exStrict 1 4 ⟨("ab.").data, false, false, true⟩ (by decide) rfl⟩

/-- Claim C3 as stated is false on the code: with bounds 1 and 4 on
`ab. cdefg. hi.`, the middle chunk `cdefg.` is not the last chunk, received
no sentence through the force-merge branch, and still has length 6 over
`max_chars = 4`: it entered a fresh accumulator at a flush and was itself
longer than the maximum. -/
theorem C3_claim_false :
    ¬ (∀ i : Fin (prepareChunksF exBound 1 4).length,
        i.val + 1 < (prepareChunksF exBound 1 4).length →
        ((prepareChunksF exBound 1 4).get i).fm = false →
        (((prepareChunksF exBound 1 4).get i).text.length : Int) ≤ 4) := by
  decide

/-- Claim C3, amended: for `max_chars ≥ 0`, every emitted chunk except
possibly the last satisfies `len(chunk) <= max_chars` unless it received a
sentence through the force-merge branch or it began at a flush with a single
sentence `s` with `len(s) + 1 > max_chars` (an oversized restart, emitted
whole); and a single sentence is never split internally: the chunk list is a
grouping of the kept sentence sequence. -/
theorem C3_chunk_bound_amended (text : List Char) (min_chars max_chars : Int)
    (hmax : 0 ≤ max_chars) :
    (∀ (i : Nat) (fc : FChunk),
        (prepareChunksF text min_chars max_chars)[i]? = some fc →
        i + 1 < (prepareChunksF text min_chars max_chars).length →
        fc.fm = false → fc.ovr = false → (fc.text.length : Int) ≤ max_chars) ∧
    (∃ groups : List (List (List Char)),
        groups.flatten = keptSentences (normalizeText text) ∧
        (prepareChunksF text min_chars max_chars).map FChunk.text =
          groups.map chunkOf) := by
  constructor
  · have hinv : ∀ fc ∈ (packLoopF min_chars max_chars
        (splitSentences (normalizeText text))).lines,
        fc.fm = false → fc.ovr = false → (fc.text.length : Int) ≤ max_chars :=
      (packF_bound_invariant min_chars max_chars hmax
        (splitSentences (normalizeText text))).2
    intro i fc hget hi hfm hovr
    rw [prepareChunksF_eq] at hget hi
    by_cases hfin :
        strip (packLoopF min_chars max_chars
          (splitSentences (normalizeText text))).cur = []
    · rw [if_pos hfin] at hget
      exact hinv fc (List.getElem?_mem hget) hfm hovr
    · rw [if_neg hfin] at hget hi
      have hil : i < (packLoopF min_chars max_chars
          (splitSentences (normalizeText text))).lines.length := by
        rw [List.length_append] at hi
        simp only [List.length_singleton] at hi
        omega
      rw [List.getElem?_append_left hil] at hget
      exact hinv fc (List.getElem?_mem hget) hfm hovr
  · obtain ⟨groups, hflat, hchunks⟩ := prepareChunks_groups text min_chars max_chars
    refine ⟨groups, hflat, ?_⟩
    rw [← prepareChunks_eq_mapF]
    exact hchunks

/-- Witness for the amended C3 at the concrete input `ab. cdefg. hi.` with
bounds 1 and 4. -/
theorem C3_chunk_bound_amended_witness :
    (0 : Int) ≤ 4 ∧
    ((∀ (i : Nat) (fc : FChunk),
        (prepareChunksF exBound 1 4)[i]? = some fc →
        i + 1 < (prepareChunksF exBound 1 4).length →
        fc.fm = false → fc.ovr = false → (fc.text.length : Int) ≤ 4) ∧
     (∃ groups : List (List (List Char)),
        groups.flatten = keptSentences (normalizeText exBound) ∧
        (prepareChunksF exBound 1 4).map FChunk.text = groups.map chunkOf)) :=
  ⟨by decide, C3_chunk_bound_amended exBound 1 4 (by decide)⟩

/-! ### Character-level facts about the whitespace collapse and normalization -/

theorem isTerminal_not_ws {c : Char} (h : isTerminal c = true) :
    isPySpace c = false := by
  simp only [isTerminal, Bool.or_eq_true, decide_eq_true_eq] at h
  rcases h with h | h
  · rcases h with rfl | rfl <;> decide
  · rcases h with rfl
    decide

theorem collapseGo_mem : ∀ (l : List Char) (b : Bool) (x : Char),
    x ∈ collapseGo b l → x = ' ' ∨ (x ∈ l ∧ isPySpace x = false) := by
  intro l
  induction l with
  | nil =>
    intro b x h
    cases h
  | cons c cs ih =>
    intro b x h
    by_cases hc : isPySpace c = true
    · cases b with
      | true =>
        simp only [collapseGo, hc, if_true] at h
        rcases ih true x h with h | ⟨h1, h2⟩
        · exact Or.inl h
        · exact Or.inr ⟨List.mem_cons_of_mem c h1, h2⟩
      | false =>
        simp only [collapseGo, hc, if_true, if_false] at h
        rcases List.mem_cons.mp h with rfl | h
        · exact Or.inl rfl
        · rcases ih true x h with h | ⟨h1, h2⟩
          · exact Or.inl h
          · exact Or.inr ⟨List.mem_cons_of_mem c h1, h2⟩
    · simp only [collapseGo, hc, if_false] at h
      rcases List.mem_cons.mp h with rfl | h
      · exact Or.inr ⟨List.mem_cons_self _ _, Bool.eq_false_iff.mpr hc⟩
      · rcases ih false x h with h | ⟨h1, h2⟩
        · exact Or.inl h
        · exact Or.inr ⟨List.mem_cons_of_mem c h1, h2⟩

theorem collapseGo_head_true : ∀ (l : List Char) (x : Char),
    (collapseGo true l).head? = some x → isPySpace x = false := by
  intro l
  induction l with
  | nil =>
    intro x h
    cases h
  | cons c cs ih =>
    intro x h
    by_cases hc : isPySpace c = true
    · simp only [collapseGo, hc, if_true] at h
      exact ih x h
    · simp only [collapseGo, hc, if_false, List.head?_cons] at h
      cases h
      exact Bool.eq_false_iff.mpr hc

theorem collapseGo_noAdj : ∀ (l : List Char) (b : Bool),
    noAdj isPySpace (collapseGo b l) = true := by
  intro l
  induction l with
  | nil =>
    intro b
    rfl
  | cons c cs ih =>
    intro b
    by_cases hc : isPySpace c = true
    · cases b with
      | true =>
        simp only [collapseGo, hc, if_true]
        exact ih true
      | false =>
        simp only [collapseGo, hc, if_true, if_false]
        refine noAdj_cons_of (ih true) ?_
        intro b' hb'
        simp [collapseGo_head_true cs b' hb']
    · simp only [collapseGo, hc, if_false]
      refine noAdj_cons_of (ih false) ?_
      intro b' _
      simp [hc]

theorem noAdj_strip {p : Char → Bool} {l : List Char}
    (h : noAdj p l = true) : noAdj p (strip l) = true := by
  obtain ⟨s0, hs0⟩ := dropWs_suffix l
  have h1 : noAdj p (dropWs l) = true := by
    refine noAdj_append_right s0 ?_
    rw [hs0]
    exact h
  obtain ⟨t0, ht0⟩ := dropWsEnd_front (dropWs l)
  show noAdj p (dropWsEnd (dropWs l)) = true
  refine noAdj_append_left t0 ?_
  rw [ht0]
  exact h1

theorem normT_noAdj (text : List Char) :
    noAdj isPySpace (normalizeText text) = true :=
  noAdj_strip (collapseGo_noAdj (removeBad (applyReplacements text)) false)

theorem normT_chars (text : List Char) :
    ∀ x ∈ normalizeText text, 0x20 ≤ x.toNat ∧ x.toNat ≤ 0x7E := by
  intro x hx
  have hx' : x ∈ collapseWs (removeBad (applyReplacements text)) := strip_mem hx
  rcases collapseGo_mem _ false x hx' with rfl | ⟨h1, h2⟩
  · exact ⟨by decide, by decide⟩
  · have hk : keepChar x = true := (List.mem_filter.mp h1).2
    simp only [keepChar, Bool.or_eq_true, Bool.and_eq_true, decide_eq_true_eq] at hk
    rcases hk with ((hk | hk) | hk) | hk
    · exact hk
    · subst hk
      exact absurd h2 (by decide)
    · subst hk
      exact absurd h2 (by decide)
    · subst hk
      exact absurd h2 (by decide)

/-! ### Facts about the sentence-splitting scan -/

theorem head?_append_or (x y : List Char) {a : Char} (h : (x ++ y).head? = some a) :
    x.head? = some a ∨ (x = [] ∧ y.head? = some a) := by
  cases x with
  | nil => exact Or.inr ⟨rfl, h⟩
  | cons b bs =>
    left
    simpa using h

theorem splitGo_nil (mode : Bool) (acc : List Char) :
    splitGo mode acc [] = [acc.reverse] := by
  cases mode <;> rfl

theorem splitGo_mem : ∀ (rest : List Char) (mode : Bool) (acc : List Char)
    (p : List Char), p ∈ splitGo mode acc rest → ∀ x ∈ p, x ∈ acc ∨ x ∈ rest := by
  intro rest
  induction rest with
  | nil =>
    intro mode acc p hp x hx
    rw [splitGo_nil] at hp
    rcases List.mem_singleton.mp hp with rfl
    exact Or.inl (List.mem_reverse.mp hx)
  | cons c cs ih =>
    intro mode acc p hp x hx
    cases mode with
    | true =>
      by_cases hc : isPySpace c = true
      · rw [show splitGo true acc (c :: cs) = splitGo true acc cs from by
          simp [splitGo, hc]] at hp
        rcases ih true acc p hp x hx with h | h
        · exact Or.inl h
        · exact Or.inr (List.mem_cons_of_mem c h)
      · rw [show splitGo true acc (c :: cs) = splitGo false (c :: acc) cs from by
          simp [splitGo, hc]] at hp
        rcases ih false (c :: acc) p hp x hx with h | h
        · rcases List.mem_cons.mp h with rfl | h
          · exact Or.inr (List.mem_cons_self _ _)
          · exact Or.inl h
        · exact Or.inr (List.mem_cons_of_mem c h)
    | false =>
      by_cases ht : isTerminal c = true
      · cases cs with
        | nil =>
          have hpe : p = (c :: acc).reverse := by
            simpa [splitGo, ht] using hp
          subst hpe
          have hx' := List.mem_reverse.mp hx
          rcases List.mem_cons.mp hx' with rfl | h
          · exact Or.inr (List.mem_cons_self _ _)
          · exact Or.inl h
        | cons d ds =>
          by_cases hd : isPySpace d = true
          · rw [show splitGo false acc (c :: d :: ds) =
                (c :: acc).reverse :: splitGo true [] (d :: ds) from by
              simp [splitGo, ht, hd]] at hp
            rcases List.mem_cons.mp hp with rfl | hp
            · have hx' := List.mem_reverse.mp hx
              rcases List.mem_cons.mp hx' with rfl | h
              · exact Or.inr (List.mem_cons_self _ _)
              · exact Or.inl h
            · rcases ih true [] p hp x hx with h | h
              · cases h
              · exact Or.inr (List.mem_cons_of_mem c h)
          · rw [show splitGo false acc (c :: d :: ds) =
                splitGo false (c :: acc) (d :: ds) from by
              simp [splitGo, ht, hd]] at hp
            rcases ih false (c :: acc) p hp x hx with h | h
            · rcases List.mem_cons.mp h with rfl | h
              · exact Or.inr (List.mem_cons_self _ _)
              · exact Or.inl h
            · exact Or.inr (List.mem_cons_of_mem c h)
      · rw [show splitGo false acc (c :: cs) = splitGo false (c :: acc) cs from by
          rw [splitGo.eq_def]
          simp only [if_neg ht]] at hp
        rcases ih false (c :: acc) p hp x hx with h | h
        · rcases List.mem_cons.mp h with rfl | h
          · exact Or.inr (List.mem_cons_self _ _)
          · exact Or.inl h
        · exact Or.inr (List.mem_cons_of_mem c h)

theorem splitSent_mem {t p : List Char} (hp : p ∈ splitSentences t) {x : Char}
    (hx : x ∈ p) : x ∈ t := by
  rcases splitGo_mem t false [] p hp x hx with h | h
  · cases h
  · exact h

theorem splitGo_clean : ∀ (rest : List Char) (mode : Bool) (acc : List Char),
    noAdj isPySpace (acc.reverse ++ rest) = true →
    (∀ x, (acc.reverse).head? = some x → isPySpace x = false) →
    (∀ x, (acc.reverse ++ rest).getLast? = some x → isPySpace x = false) →
    (mode = false → acc = [] → ∀ x, rest.head? = some x → isPySpace x = false) →
    (mode = true → acc = []) →
    ∀ p ∈ splitGo mode acc rest, cleanP p := by
  intro rest
  induction rest with
  | nil =>
    intro mode acc hss hh hlast hface hmode p hp
    rw [splitGo_nil] at hp
    rcases List.mem_singleton.mp hp with rfl
    refine ⟨hh, ?_, ?_⟩
    · intro x hx
      exact hlast x (by simpa using hx)
    · simpa using hss
  | cons c cs ih =>
    intro mode acc hss hh hlast hface hmode p hp
    cases mode with
    | true =>
      have hacc : acc = [] := hmode rfl
      subst hacc
      simp only [List.reverse_nil, List.nil_append] at hss hh hlast
      by_cases hc : isPySpace c = true
      · rw [show splitGo true [] (c :: cs) = splitGo true [] cs from by
          simp [splitGo, hc]] at hp
        refine ih true [] ?_ ?_ ?_ (fun h => absurd h (by simp)) (fun _ => rfl) p hp
        · simpa using noAdj_tail hss
        · intro x hx
          simp at hx
        · intro x hx
          simp only [List.reverse_nil, List.nil_append] at hx
          cases cs with
          | nil => cases hx
          | cons e es =>
            refine hlast x ?_
            rw [List.getLast?_cons_cons]
            exact hx
      · rw [show splitGo true [] (c :: cs) = splitGo false [c] cs from by
          simp [splitGo, hc]] at hp
        refine ih false [c] ?_ ?_ ?_ ?_ (fun h => absurd h (by simp)) p hp
        · simpa using hss
        · intro x hx
          simp only [List.reverse_singleton, List.head?_cons] at hx
          cases hx
          exact Bool.eq_false_iff.mpr hc
        · intro x hx
          refine hlast x ?_
          simpa using hx
        · intro _ habs
          exact absurd habs (by simp)
    | false =>
      by_cases ht : isTerminal c = true
      · cases cs with
        | nil =>
          have hpe : p = (c :: acc).reverse := by
            simpa [splitGo, ht] using hp
          subst hpe
          rw [List.reverse_cons]
          refine ⟨?_, ?_, ?_⟩
          · intro x hx
            rcases head?_append_or _ _ hx with h | ⟨he, h⟩
            · exact hh x h
            · have hxc : c = x := by simpa using h
              subst hxc
              exact isTerminal_not_ws ht
          · intro x hx
            rw [List.getLast?_concat] at hx
            cases hx
            exact isTerminal_not_ws ht
          · refine noAdj_append_left ([] : List Char) ?_
            rw [List.append_assoc]
            simpa using hss
        | cons d ds =>
          by_cases hd : isPySpace d = true
          · rw [show splitGo false acc (c :: d :: ds) =
                (c :: acc).reverse :: splitGo true [] (d :: ds) from by
              simp [splitGo, ht, hd]] at hp
            rcases List.mem_cons.mp hp with rfl | hp
            · rw [List.reverse_cons]
              refine ⟨?_, ?_, ?_⟩
              · intro x hx
                rcases head?_append_or _ _ hx with h | ⟨he, h⟩
                · exact hh x h
                · have hxc : c = x := by simpa using h
                  subst hxc
                  exact isTerminal_not_ws ht
              · intro x hx
                rw [List.getLast?_concat] at hx
                cases hx
                exact isTerminal_not_ws ht
              · refine noAdj_append_left (d :: ds) ?_
                rw [List.append_assoc]
                simpa using hss
            · refine ih true [] ?_ ?_ ?_ (fun h => absurd h (by simp))
                (fun _ => rfl) p hp
              · simp only [List.reverse_nil, List.nil_append]
                exact noAdj_tail (noAdj_append_right _ hss)
              · intro x hx
                simp at hx
              · intro x hx
                simp only [List.reverse_nil, List.nil_append] at hx
                refine hlast x ?_
                rw [List.getLast?_append]
                rw [List.getLast?_cons_cons]
                rw [hx]
                rfl
          · rw [show splitGo false acc (c :: d :: ds) =
                splitGo false (c :: acc) (d :: ds) from by
              simp [splitGo, ht, hd]] at hp
            refine ih false (c :: acc) ?_ ?_ ?_ ?_ (fun h => absurd h (by simp)) p hp
            · rw [List.reverse_cons, List.append_assoc]
              simpa using hss
            · intro x hx
              rw [List.reverse_cons] at hx
              rcases head?_append_or _ _ hx with h | ⟨he, h⟩
              · exact hh x h
              · have hxc : c = x := by simpa using h
                subst hxc
                exact isTerminal_not_ws ht
            · intro x hx
              rw [List.reverse_cons, List.append_assoc] at hx
              refine hlast x ?_
              simpa using hx
            · intro _ habs
              exact absurd habs (by simp)
      · rw [show splitGo false acc (c :: cs) = splitGo false (c :: acc) cs from by
          rw [splitGo.eq_def]
          simp only [if_neg ht]] at hp
        refine ih false (c :: acc) ?_ ?_ ?_ ?_ (fun h => absurd h (by simp)) p hp
        · rw [List.reverse_cons, List.append_assoc]
          simpa using hss
        · intro x hx
          rw [List.reverse_cons] at hx
          rcases head?_append_or _ _ hx with h | ⟨he, h⟩
          · exact hh x h
          · have hacc : acc = [] := by simpa using he
            have hxc : c = x := by simpa using h
            subst hxc
            exact hface rfl hacc c rfl
        · intro x hx
          rw [List.reverse_cons, List.append_assoc] at hx
          refine hlast x ?_
          simpa using hx
        · intro _ habs
          exact absurd habs (by simp)

theorem normT_head {text : List Char} {x : Char}
    (h : (normalizeText text).head? = some x) : isPySpace x = false :=
  strip_head h

theorem normT_getLast (text : List Char) {x : Char}
    (h : (normalizeText text).getLast? = some x) : isPySpace x = false :=
  strip_getLast h

theorem keptSentences_facts (text : List Char) :
    ∀ p ∈ keptSentences (normalizeText text), p ≠ [] ∧ cleanP p := by
  intro p hp
  have hmem := List.mem_filter.mp hp
  have hsplit : p ∈ splitSentences (normalizeText text) := hmem.1
  have hkeep : strip p ≠ [] := by
    have h2 := hmem.2
    simpa [keepS] using h2
  constructor
  · intro hnil
    subst hnil
    exact hkeep rfl
  · refine splitGo_clean (normalizeText text) false [] ?_ ?_ ?_ ?_
      (fun h => absurd h (by simp)) p hsplit
    · simpa using normT_noAdj text
    · intro x hx
      simp at hx
    · intro x hx
      refine normT_getLast text ?_
      simpa using hx
    · intro _ _ x hx
      exact normT_head hx

theorem mem_of_head? {l : List Char} {a : Char} (h : l.head? = some a) : a ∈ l := by
  cases l with
  | nil => cases h
  | cons b bs =>
    have hba : b = a := by simpa using h
    subst hba
    exact List.mem_cons_self _ _

theorem joinSp_noAdj : ∀ (g : List (List Char)),
    (∀ s ∈ g, s ≠ [] ∧ cleanP s) →
    noAdj isPySpace (joinSp g) = true ∧
    (∀ x, (joinSp g).head? = some x → isPySpace x = false) := by
  intro g
  induction g with
  | nil =>
    exact fun _ => ⟨rfl, fun x hx => by cases hx⟩
  | cons s rest ih =>
    intro h
    have hs := h s (List.mem_cons_self _ _)
    have hne := hs.1
    have hhead := hs.2.1
    have hlastp := hs.2.2.1
    have hadj := hs.2.2.2
    obtain ⟨ih1, ih2⟩ := ih (fun y hy => h y (List.mem_cons_of_mem _ hy))
    have hy : noAdj isPySpace (' ' :: joinSp rest) = true := by
      refine noAdj_cons_of ih1 ?_
      intro b hb
      simp [ih2 b hb]
    constructor
    · show noAdj isPySpace (s ++ ' ' :: joinSp rest) = true
      refine noAdj_append hadj hy ?_
      intro a b ha _
      simp [hlastp a ha]
    · intro x hx
      rcases head?_append_or s (' ' :: joinSp rest) hx with hxs | ⟨he, _⟩
      · exact hhead x hxs
      · exact absurd he hne

theorem chunk_facts (text : List Char) (min_chars max_chars : Int) :
    ∀ c ∈ prepareChunks text min_chars max_chars,
      (∀ x ∈ c, x = ' ' ∨ x ∈ normalizeText text) ∧
      noAdj isPySpace c = true := by
  obtain ⟨groups, hflat, hchunks⟩ := prepareChunks_groups text min_chars max_chars
  intro c hc
  rw [hchunks] at hc
  obtain ⟨g, hg, rfl⟩ := List.mem_map.mp hc
  have hgsub : ∀ s ∈ g, s ∈ keptSentences (normalizeText text) := by
    intro s hs
    rw [← hflat]
    exact List.mem_flatten_of_mem hg hs
  constructor
  · intro x hx
    have hx' : x ∈ joinSp g := strip_mem hx
    rcases joinSp_mem hx' with rfl | ⟨s, hs, hxs⟩
    · exact Or.inl rfl
    · right
      have hks := hgsub s hs
      have hsp : s ∈ splitSentences (normalizeText text) :=
        (List.mem_filter.mp hks).1
      exact splitSent_mem hsp hxs
  · refine noAdj_strip ?_
    refine (joinSp_noAdj g ?_).1
    intro s hs
    exact keptSentences_facts text s (hgsub s hs)

theorem chunks_nonempty (text : List Char) (min_chars max_chars : Int)
    (hmin : (1 : Int) ≤ min_chars) :
    ∀ c ∈ prepareChunks text min_chars max_chars, c ≠ [] := by
  intro c hc
  rw [prepareChunks_eq] at hc
  by_cases hfin :
      strip (packLoop min_chars max_chars (splitSentences (normalizeText text))).2 = []
  · rw [if_pos hfin] at hc
    have hlen := pack_min_invariant text min_chars max_chars c hc
    intro hnil
    subst hnil
    simp at hlen
    omega
  · rw [if_neg hfin] at hc
    rcases List.mem_append.mp hc with hc | hc
    · have hlen := pack_min_invariant text min_chars max_chars c hc
      intro hnil
      subst hnil
      simp at hlen
      omega
    · rcases List.mem_singleton.mp hc with rfl
      exact hfin

/-! ### Lemmas about the newline join -/

theorem joinNl_cons_cons (l l2 : List Char) (rest : List (List Char)) :
    joinNl (l :: l2 :: rest) = l ++ '\n' :: joinNl (l2 :: rest) := rfl

theorem joinNl_mem : ∀ (ls : List (List Char)) (x : Char),
    x ∈ joinNl ls → (∃ c ∈ ls, x ∈ c) ∨ x = '\n' := by
  intro ls
  induction ls with
  | nil =>
    intro x h
    cases h
  | cons l rest ih =>
    intro x h
    cases rest with
    | nil =>
      exact Or.inl ⟨l, List.mem_cons_self _ _, h⟩
    | cons l2 rest2 =>
      rw [joinNl_cons_cons] at h
      rcases List.mem_append.mp h with h | h
      · exact Or.inl ⟨l, List.mem_cons_self _ _, h⟩
      · rcases List.mem_cons.mp h with rfl | h
        · exact Or.inr rfl
        · rcases ih x h with ⟨c, hc, hxc⟩ | rfl
          · exact Or.inl ⟨c, List.mem_cons_of_mem _ hc, hxc⟩
          · exact Or.inr rfl

theorem joinNl_ne_nil {l : List Char} (hl : l ≠ []) (rest : List (List Char)) :
    joinNl (l :: rest) ≠ [] := by
  cases rest with
  | nil => exact hl
  | cons l2 r2 =>
    rw [joinNl_cons_cons]
    intro h
    rcases List.append_eq_nil.mp h with ⟨_, h2⟩
    cases h2

theorem joinNl_head {l : List Char} (hl : l ≠ []) (rest : List (List Char)) :
    (joinNl (l :: rest)).head? = l.head? := by
  cases rest with
  | nil => rfl
  | cons l2 r2 =>
    rw [joinNl_cons_cons]
    cases l with
    | nil => exact absurd rfl hl
    | cons a as => rfl

theorem joinNl_head_mem : ∀ (ls : List (List Char)), (∀ c ∈ ls, c ≠ []) →
    ∀ x, (joinNl ls).head? = some x → ∃ c ∈ ls, x ∈ c := by
  intro ls hne x hx
  cases ls with
  | nil => cases hx
  | cons l rest =>
    rw [joinNl_head (hne l (List.mem_cons_self _ _)) rest] at hx
    exact ⟨l, List.mem_cons_self _ _, mem_of_head? hx⟩

theorem joinNl_getLast_mem : ∀ (ls : List (List Char)), (∀ c ∈ ls, c ≠ []) →
    ∀ x, (joinNl ls).getLast? = some x → ∃ c ∈ ls, x ∈ c := by
  intro ls
  induction ls with
  | nil =>
    intro _ x h
    cases h
  | cons l rest ih =>
    intro hne x h
    cases rest with
    | nil =>
      exact ⟨l, List.mem_cons_self _ _, List.mem_of_getLast?_eq_some h⟩
    | cons l2 r2 =>
      rw [joinNl_cons_cons] at h
      rw [List.getLast?_append] at h
      have hJ : joinNl (l2 :: r2) ≠ [] :=
        joinNl_ne_nil (hne l2 (by simp)) r2
      have h2 : ('\n' :: joinNl (l2 :: r2)).getLast? = (joinNl (l2 :: r2)).getLast? := by
        cases hJe : joinNl (l2 :: r2) with
        | nil => exact absurd hJe hJ
        | cons j js => rw [List.getLast?_cons_cons]
      rw [h2] at h
      cases hJl : (joinNl (l2 :: r2)).getLast? with
      | none => exact absurd (List.getLast?_eq_none_iff.mp hJl) hJ
      | some y =>
        rw [hJl] at h
        have hyx : y = x := by simpa using h
        subst hyx
        obtain ⟨c, hc, hxc⟩ :=
          ih (fun c hc => hne c (List.mem_cons_of_mem _ hc)) y hJl
        exact ⟨c, List.mem_cons_of_mem _ hc, hxc⟩

theorem joinNl_noAdj (p : Char → Bool) : ∀ (ls : List (List Char)),
    (∀ c ∈ ls, c ≠ []) → (∀ c ∈ ls, ∀ x ∈ c, p x = false) →
    noAdj p (joinNl ls) = true := by
  intro ls
  induction ls with
  | nil =>
    intro _ _
    rfl
  | cons l rest ih =>
    intro hne hnp
    cases rest with
    | nil =>
      exact noAdj_of_all_not (hnp l (List.mem_cons_self _ _))
    | cons l2 r2 =>
      rw [joinNl_cons_cons]
      have hJadj : noAdj p (joinNl (l2 :: r2)) = true :=
        ih (fun c hc => hne c (List.mem_cons_of_mem _ hc))
          (fun c hc => hnp c (List.mem_cons_of_mem _ hc))
      have hy : noAdj p ('\n' :: joinNl (l2 :: r2)) = true := by
        refine noAdj_cons_of hJadj ?_
        intro b hb
        rw [joinNl_head (hne l2 (by simp)) r2] at hb
        have hbm : b ∈ l2 := mem_of_head? hb
        simp [hnp l2 (by simp) b hbm]
      refine noAdj_append (noAdj_of_all_not (hnp l (List.mem_cons_self _ _))) hy ?_
      intro a b ha _
      have ham : a ∈ l := List.mem_of_getLast?_eq_some ha
      simp [hnp l (List.mem_cons_self _ _) a ham]

theorem chunk_no_nl (text : List Char) (min_chars max_chars : Int) :
    ∀ c ∈ prepareChunks text min_chars max_chars, ∀ x ∈ c, isNl x = false := by
  intro c hc x hx
  rcases (chunk_facts text min_chars max_chars c hc).1 x hx with rfl | hxn
  · decide
  · obtain ⟨h1, _⟩ := normT_chars text x hxn
    simp only [isNl, decide_eq_false_iff_not]
    intro heq
    subst heq
    exact absurd h1 (by decide)

/-- Claim C9: with `min_chars ≥ 1` every emitted chunk is a non-empty string,
so the returned value never contains two consecutive newlines and never
begins or ends with a newline. -/
theorem C9_nonempty_chunks (text : List Char) (min_chars max_chars : Int)
    (hmin : (1 : Int) ≤ min_chars) :
    (∀ c ∈ prepareChunks text min_chars max_chars, c ≠ []) ∧
    ¬ (['\n', '\n'] <:+:
        sanitize_and_prepare_text_for_llm text min_chars max_chars) ∧
    (∀ x, (sanitize_and_prepare_text_for_llm text min_chars max_chars).head? =
        some x → x ≠ '\n') ∧
    (∀ x, (sanitize_and_prepare_text_for_llm text min_chars max_chars).getLast? =
        some x → x ≠ '\n') := by
  have hne := chunks_nonempty text min_chars max_chars hmin
  have hnl := chunk_no_nl text min_chars max_chars
  refine ⟨hne, ?_, ?_, ?_⟩
  · intro hinf
    have hadj : noAdj isNl
        (joinNl (prepareChunks text min_chars max_chars)) = true :=
      joinNl_noAdj isNl (prepareChunks text min_chars max_chars) hne hnl
    have hpair := noAdj_infix_pair hadj hinf
    simp [isNl] at hpair
  · intro x hx hxe
    subst hxe
    obtain ⟨c, hc, hmem⟩ :=
      joinNl_head_mem (prepareChunks text min_chars max_chars) hne '\n' hx
    have := hnl c hc '\n' hmem
    simp [isNl] at this
  · intro x hx hxe
    subst hxe
    obtain ⟨c, hc, hmem⟩ :=
      joinNl_getLast_mem (prepareChunks text min_chars max_chars) hne '\n' hx
    have := hnl c hc '\n' hmem
    simp [isNl] at this

/-- Witness for C9 at Scenario 2 of the specification. -/
theorem C9_nonempty_chunks_witness :
    (1 : Int) ≤ 100 ∧
    ((∀ c ∈ prepareChunks exHello 100 300, c ≠ []) ∧
     ¬ (['\n', '\n'] <:+: sanitize_and_prepare_text_for_llm exHello 100 300) ∧
     (∀ x, (sanitize_and_prepare_text_for_llm exHello 100 300).head? = some x →
        x ≠ '\n') ∧
     (∀ x, (sanitize_and_prepare_text_for_llm exHello 100 300).getLast? = some x →
        x ≠ '\n')) :=
  ⟨by decide, C9_nonempty_chunks exHello 100 300 (by decide)⟩

/-- Claim C10: every character of the returned string is printable ASCII
(0x20 to 0x7E) or the newline separator; no chunk contains a newline or two
consecutive spaces. -/
theorem C10_charset_invariant (text : List Char) (min_chars max_chars : Int) :
    (∀ x ∈ sanitize_and_prepare_text_for_llm text min_chars max_chars,
        (0x20 ≤ x.toNat ∧ x.toNat ≤ 0x7E) ∨ x = '\n') ∧
    (∀ c ∈ prepareChunks text min_chars max_chars,
        ('\n' ∉ c) ∧ ¬ ([' ', ' '] <:+: c)) := by
  constructor
  · intro x hx
    have hx' : x ∈ joinNl (prepareChunks text min_chars max_chars) := hx
    rcases joinNl_mem _ x hx' with ⟨c, hc, hxc⟩ | rfl
    · rcases (chunk_facts text min_chars max_chars c hc).1 x hxc with rfl | hxn
      · exact Or.inl ⟨by decide, by decide⟩
      · exact Or.inl (normT_chars text x hxn)
    · exact Or.inr rfl
  · intro c hc
    obtain ⟨hchars, hadj⟩ := chunk_facts text min_chars max_chars c hc
    constructor
    · intro hmem
      rcases hchars '\n' hmem with h | h
      · exact absurd h (by decide)
      · obtain ⟨h1, _⟩ := normT_chars text '\n' h
        exact absurd h1 (by decide)
    · intro hinf
      have hpair := noAdj_infix_pair hadj hinf
      exact absurd hpair (by decide)

/-- Witness for C10: the first character of the output for Scenario 2 is a
printable ASCII character. -/
theorem C10_charset_invariant_witness :
    ('H' ∈ sanitize_and_prepare_text_for_llm exCharset 100 300) ∧
    ((0x20 ≤ ('H').toNat ∧ ('H').toNat ≤ 0x7E) ∨ 'H' = '\n') :=
  ⟨by decide, (C10_charset_invariant exCharset 100 300).1 'H' (by decide)⟩
